import Mathlib

/-
Verification development for a minimal content-addressable object store
(a git-plumbing style program written in Rust, file src/main.rs).

Shallow embedding conventions:
  * Rust `Vec<u8>` and `&[u8]` are `List Nat` whose elements are byte values.
  * Rust `String`/`&str` are `List Nat` of Unicode code points (a Rust string
    is a sequence of chars); whenever Rust touches the UTF-8 bytes of a string
    (`len()`, `as_bytes()`, `String::from_utf8`) we go through `utf8Encode` /
    `utf8Decode`.
  * A Rust function that can panic (out-of-bounds indexing, `unwrap`,
    `unimplemented!`) is modelled with an explicit panic outcome:
    `Option` (`none` = panic) for infallible-but-panicky helpers and
    `RResult` (`.panic`) for `Result`-returning functions whose body can
    also panic.
  * External collaborators (SHA-1 from the `crypto` crate, the flate2 zlib
    codec, the filesystem) are modelled executably; their doc comments say
    what is modelled.
-/

set_option maxRecDepth 4000

namespace GitSpec

/-- Code points of a Lean string literal; used to write the byte/char
sequences appearing in the Rust source (all literals used are ASCII, where
code points and bytes coincide). -/
def strCodes (s : String) : List Nat := s.data.map Char.toNat

/-! ## UTF-8 encoding and decoding

Models the Rust standard library's UTF-8 handling (`String::from_utf8`,
`str::as_bytes`, `String::len`).  `utf8Encode` turns code points into bytes,
`utf8Decode` validates bytes and returns code points (strict: rejects
overlong forms, surrogates and out-of-range values, as Rust does). -/

/-- A Unicode scalar value: in range and not a surrogate. -/
def ValidScalar (c : Nat) : Prop := c < 1114112 ∧ ¬ (55296 ≤ c ∧ c ≤ 57343)

instance (c : Nat) : Decidable (ValidScalar c) := by
  unfold ValidScalar; infer_instance

/-- UTF-8 encoding of one code point (1 to 4 bytes). -/
def encodeChar (c : Nat) : List Nat :=
  if c < 128 then [c]
  else if c < 2048 then [192 + c / 64, 128 + c % 64]
  else if c < 65536 then [224 + c / 4096, 128 + c / 64 % 64, 128 + c % 64]
  else [240 + c / 262144, 128 + c / 4096 % 64, 128 + c / 64 % 64, 128 + c % 64]

/-- UTF-8 bytes of a sequence of code points (`str::as_bytes`). -/
def utf8Encode (cs : List Nat) : List Nat := (cs.map encodeChar).flatten

/-- Decode one UTF-8 scalar from the front of a byte list; `none` on any
malformed prefix.  Strict: rejects continuation-byte leads, overlong
encodings, surrogates, and values above 0x10FFFF. -/
def decodeOne : List Nat → Option (Nat × List Nat)
  | [] => none
  | b :: rest =>
    if b < 128 then some (b, rest)
    else if b < 194 then none
    else if b < 224 then
      match rest with
      | b1 :: r =>
        if 128 ≤ b1 ∧ b1 < 192 then some (64 * (b - 192) + (b1 - 128), r) else none
      | [] => none
    else if b < 240 then
      match rest with
      | b1 :: b2 :: r =>
        if 128 ≤ b1 ∧ b1 < 192 ∧ 128 ≤ b2 ∧ b2 < 192 then
          if 2048 ≤ 4096 * (b - 224) + 64 * (b1 - 128) + (b2 - 128) ∧
              ¬ (55296 ≤ 4096 * (b - 224) + 64 * (b1 - 128) + (b2 - 128) ∧
                 4096 * (b - 224) + 64 * (b1 - 128) + (b2 - 128) ≤ 57343) then
            some (4096 * (b - 224) + 64 * (b1 - 128) + (b2 - 128), r)
          else none
        else none
      | _ => none
    else if b < 245 then
      match rest with
      | b1 :: b2 :: b3 :: r =>
        if 128 ≤ b1 ∧ b1 < 192 ∧ 128 ≤ b2 ∧ b2 < 192 ∧ 128 ≤ b3 ∧ b3 < 192 then
          if 65536 ≤ 262144 * (b - 240) + 4096 * (b1 - 128) + 64 * (b2 - 128) + (b3 - 128) ∧
              262144 * (b - 240) + 4096 * (b1 - 128) + 64 * (b2 - 128) + (b3 - 128) < 1114112 then
            some (262144 * (b - 240) + 4096 * (b1 - 128) + 64 * (b2 - 128) + (b3 - 128), r)
          else none
        else none
      | _ => none
    else none

/-- Fuel-indexed UTF-8 decoder (fuel bounds the number of scalars; the list
length is always enough fuel since every scalar consumes at least one byte). -/
def utf8DecodeF : Nat → List Nat → Option (List Nat)
  | _, [] => some []
  | 0, _ :: _ => none
  | fuel + 1, b :: t =>
    match decodeOne (b :: t) with
    | some (c, r) => (utf8DecodeF fuel r).map (fun cs => c :: cs)
    | none => none

/-- Validating UTF-8 decode of a byte list (`String::from_utf8`): code points
on success, `none` on invalid UTF-8. -/
def utf8Decode (bs : List Nat) : Option (List Nat) := utf8DecodeF bs.length bs

/-! ## Errors and results

`GitError` is the program's error enum (src/main.rs lines 19-30).  `RResult`
is the outcome of a Rust `Result`-returning computation whose body may also
panic: `.ok`, `.err`, or `.panic` (out-of-bounds indexing, `unwrap`). -/

/-- The `GitError` enum of the source, verbatim variants; `String` payloads
are code-point lists. -/
inductive GitError where
  | FailedToReadGitObjectFile : List Nat → GitError
  | InvalidGitObject : GitError
  | ZlibDecompressionFailed : List Nat → GitError
  | InvalidDecompressSize : GitError
  | UnknownGitType : GitError
  | UnknownEntryMode : GitError
  | InvalidTreeEntry : GitError
  | CreateBlob : List Nat → GitError
  | CreateTree : List Nat → GitError
deriving DecidableEq, Repr

/-- Outcome of a fallible Rust computation: success, a returned `GitError`,
or a panic (out-of-bounds index / `unwrap` failure). -/
inductive RResult (α : Type) where
  | ok : α → RResult α
  | err : GitError → RResult α
  | panic : RResult α
deriving DecidableEq, Repr

/-! ## Scanning and numeric parsing helpers -/

/-- The byte-scanning loop pattern of the source (e.g. lines 135-142,
548-555): advance an index until the target byte is found, collecting the
bytes passed over; running past the end of the slice is an index panic,
modelled as `none`.  Returns (bytes before the target, bytes after it). -/
def scanUntil (target : Nat) : List Nat → Option (List Nat × List Nat)
  | [] => none
  | b :: rest =>
    if b = target then some ([], rest)
    else (scanUntil target rest).map (fun p => (b :: p.1, p.2))

/-- `str::split_once` on a separator code point: split at the first
occurrence, `none` when absent (no panic; used by the string-based header
parser, lines 522-529). -/
def splitOnce (sep : Nat) : List Nat → Option (List Nat × List Nat)
  | [] => none
  | b :: rest =>
    if b = sep then some ([], rest)
    else (splitOnce sep rest).map (fun p => (b :: p.1, p.2))

/-- Numeric value of a list of ASCII digit codes, most significant first. -/
def digitsVal (l : List Nat) : Nat := l.foldl (fun a b => a * 10 + (b - 48)) 0

/-- `str::parse::<usize>()`: optional leading plus sign, then one or more
ASCII digits, value below 2^64 (64-bit usize); anything else is a parse
error. -/
def parseUsize (l : List Nat) : Option Nat :=
  let digits := if l.headD 0 = 43 then l.tail else l
  if digits ≠ [] ∧ ∀ b ∈ digits, 48 ≤ b ∧ b ≤ 57 then
    if digitsVal digits < 18446744073709551616 then some (digitsVal digits) else none
  else none

/-- Fuel-indexed digit accumulator for decimal rendering: peel least
significant digits of `n` onto `acc` (fuel `n` always suffices). -/
def decAux : Nat → Nat → List Nat → List Nat
  | 0, _, acc => acc
  | fuel + 1, n, acc =>
    if n = 0 then acc else decAux fuel (n / 10) ((48 + n % 10) :: acc)

/-- ASCII decimal rendering of a `usize` (Rust `Display`), as code points.
Used by `format!("blob {}...", content.len())`. -/
def decimalCodes (n : Nat) : List Nat := if n = 0 then [48] else decAux n n []

/-! ## Hex rendering (src/main.rs `bytes_slice_to_hex`, lines 168-171) -/

/-- Code point of the lowercase hex digit for `d < 16`. -/
def hexDigitCode (d : Nat) : Nat := if d < 10 then 48 + d else 87 + d

/-- Two lowercase hex digit codes of one byte; this is what `{:02x?}` debug
formatting prints for each `u8` element. -/
def byteHexCodes (b : Nat) : List Nat := [hexDigitCode (b / 16), hexDigitCode (b % 16)]

/-- `bytes_slice_to_hex`: format the slice with `{slice:02x?}` and strip
`", "`, `[`, `]` — the net effect is the concatenation of two lowercase hex
digits per byte (empty slice gives the empty string). -/
def bytes_slice_to_hex (slice : List Nat) : List Nat := (slice.map byteHexCodes).flatten

/-! ## Entry modes and tree entries (src/main.rs lines 114-191) -/

/-- The `EntryMode` enum: fixed numeric codes 100644 / 100755 / 120000 /
40000. -/
inductive EntryMode where
  | RegularFile : EntryMode
  | ExecutableFile : EntryMode
  | SymbolicLink : EntryMode
  | Directory : EntryMode
deriving DecidableEq, Repr

/-- Numeric code of an `EntryMode` (its discriminant value in the source). -/
def EntryMode.modeValue : EntryMode → Nat
  | .RegularFile => 100644
  | .ExecutableFile => 100755
  | .SymbolicLink => 120000
  | .Directory => 40000

/-- `EntryMode::from_mode_value` (lines 182-190): the four exact codes map to
their variants, everything else is `UnknownEntryMode`. -/
def EntryMode.from_mode_value (value : Nat) : RResult EntryMode :=
  if value = 100644 then .ok .RegularFile
  else if value = 100755 then .ok .ExecutableFile
  else if value = 120000 then .ok .SymbolicLink
  else if value = 40000 then .ok .Directory
  else .err .UnknownEntryMode

/-- The `TreeEntry` struct: mode, name (code points of the built `String`),
and the 40-hex-char child identifier. -/
structure TreeEntry where
  mode : EntryMode
  name : List Nat
  sha1_hash : List Nat
deriving DecidableEq, Repr

/-- `parse_tree_entry_bytes` (lines 131-166): scan to the first space
(collected bytes, pushed one by one as `u8 as char`, form the mode string),
parse it as `usize` (`InvalidTreeEntry` on failure), scan on to the first
NUL building the name the same way, and hex-render all remaining bytes.
Both scans index the slice directly and panic past the end. -/
def parse_tree_entry_bytes (teb : List Nat) : RResult (Nat × List Nat × List Nat) :=
  match scanUntil 32 teb with
  | none => .panic
  | some (modeBytes, rest) =>
    match parseUsize modeBytes with
    | none => .err .InvalidTreeEntry
    | some mode =>
      match scanUntil 0 rest with
      | none => .panic
      | some (nameBytes, byteSha) => .ok (mode, nameBytes, bytes_slice_to_hex byteSha)

/-- `TreeEntry::from_bytes` (lines 122-128): any error from
`parse_tree_entry_bytes` becomes `InvalidGitObject`; the mode value then goes
through `EntryMode::from_mode_value`. -/
def TreeEntry.from_bytes (bytes : List Nat) : RResult TreeEntry :=
  match parse_tree_entry_bytes bytes with
  | .panic => .panic
  | .err _ => .err .InvalidGitObject
  | .ok (modeVal, name, byteShaHex) =>
    match EntryMode.from_mode_value modeVal with
    | .ok mode => .ok ⟨mode, name, byteShaHex⟩
    | .err e => .err e
    | .panic => .panic

/-- `tree_entry_end_pos` (lines 601-607): the positions of all NUL bytes in
the payload, each shifted by 21 — intended entry end positions. -/
def tree_entry_end_pos (v : List Nat) : List Nat :=
  ((v.enum.filter (fun p => p.2 == 0)).map (fun p => p.1 + 21))

/-- The slicing loop of `extract_from_vec_at` (lines 609-620) with its
running `prev_pos` accumulator: each position `p` yields the slice
`vec[prev..p]`; Rust slicing panics (`none`) when `p` exceeds the length or
`prev > p`. -/
def extractFromAux (vec : List Nat) : List Nat → Nat → Option (List (List Nat))
  | [], _ => some []
  | p :: ps, prev =>
    if prev ≤ p ∧ p ≤ vec.length then
      match extractFromAux vec ps p with
      | some rest => some ((vec.drop prev).take (p - prev) :: rest)
      | none => none
    else none

/-- `extract_from_vec_at` (lines 609-620): slice `vec` between consecutive
positions, starting from 0. -/
def extract_from_vec_at (vec : List Nat) (pos : List Nat) : Option (List (List Nat)) :=
  extractFromAux vec pos 0

/-- The entry-collection loop of `parse_str_tree_entry_vec` (lines 589-596):
parse each slice with `TreeEntry::from_bytes`, aborting on the first error. -/
def treeEntriesFromSlices : List (List Nat) → RResult (List TreeEntry)
  | [] => .ok []
  | s :: t =>
    match TreeEntry.from_bytes s with
    | .ok e =>
      match treeEntriesFromSlices t with
      | .ok es => .ok (e :: es)
      | .err e2 => .err e2
      | .panic => .panic
    | .err e2 => .err e2
    | .panic => .panic

/-- `parse_str_tree_entry_vec` (lines 585-599): compute end positions, slice
the payload there, and parse every slice. -/
def parse_str_tree_entry_vec (content : List Nat) : RResult (List TreeEntry) :=
  match extract_from_vec_at content (tree_entry_end_pos content) with
  | none => .panic
  | some slices => treeEntriesFromSlices slices

/-! ## Object codec (src/main.rs lines 32-112, 522-583) -/

/-- `GitObjectParts<T>`: decoded header (kind string, declared size) plus
payload of type `T`. -/
structure GitObjectParts (α : Type) where
  git_type : List Nat
  size : Nat
  content : α
deriving DecidableEq, Repr

/-- The `GitObject` enum: blob (string content as code points), tree, or the
out-of-scope commit placeholder. -/
inductive GitObject where
  | Blob : List Nat → GitObject
  | Tree : List TreeEntry → GitObject
  | Commit : GitObject
deriving DecidableEq, Repr

/-- `GitObject::from_parts_string` (lines 46-57): declared size must equal
`content.len()` — the UTF-8 byte length of the string — else
`InvalidGitObject`; kind `"blob"` builds a blob, anything else is
`UnknownGitType`. -/
def GitObject.from_parts_string (parts : GitObjectParts (List Nat)) : RResult GitObject :=
  if parts.size ≠ (utf8Encode parts.content).length then .err .InvalidGitObject
  else if parts.git_type = strCodes "blob" then .ok (.Blob parts.content)
  else .err .UnknownGitType

/-- `GitObject::from_parts_bytes` (lines 59-71): declared size must equal the
byte length of the payload, else `InvalidGitObject`; kind `"tree"` parses the
payload as tree entries, anything else is `UnknownGitType`. -/
def GitObject.from_parts_bytes (parts : GitObjectParts (List Nat)) : RResult GitObject :=
  if parts.size ≠ parts.content.length then .err .InvalidGitObject
  else if parts.git_type = strCodes "tree" then
    match parse_str_tree_entry_vec parts.content with
    | .ok entries => .ok (.Tree entries)
    | .err e => .err e
    | .panic => .panic
  else .err .UnknownGitType

/-- `GitObject::as_string` (lines 77-82): the canonical encoding
`format!("blob {}\0{content}", content.len())` for blobs; `unimplemented!`
(a panic, modelled `none`) for every other variant. -/
def GitObject.as_string : GitObject → Option (List Nat)
  | .Blob content =>
    some (strCodes "blob " ++ decimalCodes (utf8Encode content).length ++ [0] ++ content)
  | _ => none

/-- `parse_str_to_git_object_parts_string` (lines 522-542): split the string
at the first NUL, split the prefix at the first space, parse the size; every
missing separator or unparsable size is `InvalidGitObject` (this version
never panics: `split_once` returns an `Option`). -/
def parse_str_to_git_object_parts_string (s : List Nat) :
    RResult (GitObjectParts (List Nat)) :=
  match splitOnce 0 s with
  | none => .err .InvalidGitObject
  | some (first, content) =>
    match splitOnce 32 first with
    | none => .err .InvalidGitObject
    | some (git_type, sizeStr) =>
      match parseUsize sizeStr with
      | none => .err .InvalidGitObject
      | some size => .ok ⟨git_type, size, content⟩

/-- `parse_str_to_git_object_parts_bytes` (lines 544-583): scan for the space
and then for the NUL with raw indexing (panic past the end), rebuild the
size string with `String::from_utf8(...).unwrap()` (panic on invalid UTF-8),
and parse it (`InvalidGitObject` on failure). -/
def parse_str_to_git_object_parts_bytes (s : List Nat) :
    RResult (GitObjectParts (List Nat)) :=
  match scanUntil 32 s with
  | none => .panic
  | some (git_type, rest) =>
    match scanUntil 0 rest with
    | none => .panic
    | some (size_bytes, content) =>
      match utf8Decode size_bytes with
      | none => .panic
      | some sizeStr =>
        match parseUsize sizeStr with
        | none => .err .InvalidGitObject
        | some size => .ok ⟨git_type, size, content⟩

/-! ## SHA-1 (the `crypto` crate behind `compute_sha1_hash`, lines 622-626)

Modelled from the spec: the hasher is an external collaborator producing "a
160-bit digest over that exact byte sequence, rendered as 40 lowercase hex
characters"; the digest function is standard SHA-1, implemented here over
`Nat` with explicit `% 2^32` wraparound. -/

/-- 2^32, the word modulus of SHA-1. -/
def w32 : Nat := 4294967296

/-- Left-rotation of a 32-bit word by `s` places (0 < s < 32, x < 2^32). -/
def rotl (s x : Nat) : Nat := (x * 2 ^ s + x / 2 ^ (32 - s)) % w32

/-- Bitwise xor of three words. -/
def xor3 (a b c : Nat) : Nat := Nat.xor (Nat.xor a b) c

/-- The SHA-1 round function for round `t`. -/
def shaF (t b c d : Nat) : Nat :=
  if t < 20 then Nat.lor (Nat.land b c) (Nat.land (w32 - 1 - b) d)
  else if t < 40 then xor3 b c d
  else if t < 60 then Nat.lor (Nat.lor (Nat.land b c) (Nat.land b d)) (Nat.land c d)
  else xor3 b c d

/-- The SHA-1 round constant for round `t`. -/
def shaK (t : Nat) : Nat :=
  if t < 20 then 1518500249
  else if t < 40 then 1859775393
  else if t < 60 then 2400959708
  else 3395469782

/-- Big-endian 32-bit words from a byte list (length a multiple of 4). -/
def bytesToWords : List Nat → List Nat
  | a :: b :: c :: d :: rest => (((a * 256 + b) * 256 + c) * 256 + d) :: bytesToWords rest
  | _ => []

/-- Extend the 16 message words by `n` more words per the SHA-1 schedule. -/
def shaExtend : Nat → List Nat → List Nat
  | 0, ws => ws
  | n + 1, ws =>
    shaExtend n (ws ++ [rotl 1 (Nat.xor (Nat.xor (ws.getD (ws.length - 3) 0)
      (ws.getD (ws.length - 8) 0)) (Nat.xor (ws.getD (ws.length - 14) 0)
      (ws.getD (ws.length - 16) 0)))])

/-- The 80 SHA-1 rounds over the schedule words. -/
def shaRounds : List Nat → Nat → Nat × Nat × Nat × Nat × Nat → Nat × Nat × Nat × Nat × Nat
  | [], _, st => st
  | w :: ws, t, (a, b, c, d, e) =>
    shaRounds ws (t + 1) ((rotl 5 a + shaF t b c d + e + w + shaK t) % w32, a, rotl 30 b, c, d)

/-- Compress one 64-byte block into the running state. -/
def shaCompress (st : Nat × Nat × Nat × Nat × Nat) (block : List Nat) :
    Nat × Nat × Nat × Nat × Nat :=
  match st, shaRounds (shaExtend 64 (bytesToWords block)) 0 st with
  | (h0, h1, h2, h3, h4), (a, b, c, d, e) =>
    ((h0 + a) % w32, (h1 + b) % w32, (h2 + c) % w32, (h3 + d) % w32, (h4 + e) % w32)

/-- Fold the compression over consecutive 64-byte blocks (fuel-indexed; the
byte count is always enough fuel). -/
def shaBlocks : Nat → Nat × Nat × Nat × Nat × Nat → List Nat → Nat × Nat × Nat × Nat × Nat
  | 0, st, _ => st
  | fuel + 1, st, l => if l = [] then st else shaBlocks fuel (shaCompress st (l.take 64)) (l.drop 64)

/-- Big-endian 8-byte rendering of a 64-bit value. -/
def u64be (n : Nat) : List Nat :=
  [n / 72057594037927936 % 256, n / 281474976710656 % 256, n / 1099511627776 % 256,
   n / 4294967296 % 256, n / 16777216 % 256, n / 65536 % 256, n / 256 % 256, n % 256]

/-- Big-endian 4-byte rendering of a 32-bit word. -/
def u32be (n : Nat) : List Nat :=
  [n / 16777216 % 256, n / 65536 % 256, n / 256 % 256, n % 256]

/-- SHA-1 padding: 0x80, zeros to 56 mod 64, then the bit length big-endian. -/
def shaPad (msg : List Nat) : List Nat :=
  msg ++ (128 :: List.replicate ((119 - msg.length % 64) % 64) 0) ++ u64be (8 * msg.length)

/-- SHA-1 digest (20 bytes) of a byte list. -/
def sha1 (msg : List Nat) : List Nat :=
  match shaBlocks (shaPad msg).length
      (1732584193, 4023233417, 2562383102, 271733878, 3285377520) (shaPad msg) with
  | (h0, h1, h2, h3, h4) => u32be h0 ++ u32be h1 ++ u32be h2 ++ u32be h3 ++ u32be h4

/-- `compute_sha1_hash` (lines 622-626): feed the string's UTF-8 bytes to
SHA-1 (`input_str`) and render the digest as 40 lowercase hex characters
(`result_str`). -/
def compute_sha1_hash (content : List Nat) : List Nat :=
  ((sha1 (utf8Encode content)).map byteHexCodes).flatten

/-! ## Zlib (flate2 behind `zlib_compression` / `zlib_decompression`,
lines 509-520)

Modelled from the spec: the compressor is an external collaborator wrapping
bytes "in a general-purpose deflate-family stream"; the only hard
requirement is the lossless round trip.  Modelled as a zlib stream made of
DEFLATE stored (uncompressed) blocks with an adler32 trailer — a valid
fixed-level instance of the deflate family. -/

/-- adler32 checksum of a byte list. -/
def adler32 (bs : List Nat) : Nat :=
  match bs.foldl (fun st b => ((st.1 + b) % 65521, (st.2 + (st.1 + b) % 65521) % 65521)) (1, 0) with
  | (a, b) => b * 65536 + a

/-- Little-endian 2-byte rendering of a 16-bit value. -/
def u16le (n : Nat) : List Nat := [n % 256, n / 256]

/-- DEFLATE stored-block stream of a byte list: final block when at most
65535 bytes remain, otherwise a full non-final block and recursion
(fuel-indexed; the byte count is enough fuel since each step consumes 65535
bytes). -/
def deflateStoredF : Nat → List Nat → List Nat
  | 0, bs => 1 :: (u16le bs.length ++ u16le (65535 - bs.length) ++ bs)
  | fuel + 1, bs =>
    if bs.length ≤ 65535 then 1 :: (u16le bs.length ++ u16le (65535 - bs.length) ++ bs)
    else 0 :: (u16le 65535 ++ u16le 0 ++ (bs.take 65535 ++ deflateStoredF fuel (bs.drop 65535)))

/-- DEFLATE stored-block stream of a byte list. -/
def deflateStored (bs : List Nat) : List Nat := deflateStoredF bs.length bs

/-- Parse a DEFLATE stored-block stream: each block is a final flag, a
little-endian length, its ones-complement check, and the raw bytes; returns
the data and the remaining stream after the final block (fuel-indexed). -/
def inflateStoredF : Nat → List Nat → Option (List Nat × List Nat)
  | 0, _ => none
  | fuel + 1, bfinal :: l0 :: l1 :: n0 :: n1 :: rest =>
    if n0 + 256 * n1 = 65535 - (l0 + 256 * l1) ∧ l0 + 256 * l1 ≤ rest.length then
      if bfinal = 1 then some (rest.take (l0 + 256 * l1), rest.drop (l0 + 256 * l1))
      else if bfinal = 0 then
        match inflateStoredF fuel (rest.drop (l0 + 256 * l1)) with
        | some (d, r) => some (rest.take (l0 + 256 * l1) ++ d, r)
        | none => none
      else none
    else none
  | _ + 1, _ => none

/-- The byte-level zlib encoder: CMF/FLG header `78 01`, stored-block
deflate stream, adler32 trailer (big-endian). -/
def zlibEncodeBytes (bs : List Nat) : List Nat :=
  120 :: 1 :: (deflateStored bs ++ u32be (adler32 bs))

/-- `zlib_compression` (lines 516-520): compress the UTF-8 bytes of the
argument string (the Rust wrapper takes `&str` and writes
`content.as_bytes()`). -/
def zlib_compression (content : List Nat) : List Nat := zlibEncodeBytes (utf8Encode content)

/-- `zlib_decompression` (lines 509-514): validate the zlib header (deflate
method, header checksum divisible by 31), inflate the block stream, and
check the adler32 trailer; any corruption is a decode failure (`none`). -/
def zlib_decompression (bytes : List Nat) : Option (List Nat) :=
  match bytes with
  | cmf :: flg :: rest =>
    if cmf % 16 = 8 ∧ (cmf * 256 + flg) % 31 = 0 then
      match inflateStoredF rest.length rest with
      | some (d, r) => if r = u32be (adler32 d) then some d else none
      | none => none
    else none
  | _ => none

/-! ## Object store (src/main.rs lines 495-501, 628-633)

The filesystem is modelled from the spec as a map from paths to file bytes
(association list, newest first); `File::create_new` "fails rather than
overwrites if it already exists". -/

/-- A filesystem: association list from full path (code points) to bytes. -/
abbrev Fs : Type := List (List Nat × List Nat)

/-- Look a path up in the filesystem. -/
def fsFind : Fs → List Nat → Option (List Nat)
  | [], _ => none
  | (q, c) :: t, p => if q = p then some c else fsFind t p

/-- `sha1_to_file_path` (lines 497-501): shard directory from the first two
hash characters, file name from the remaining 38. -/
def sha1_to_file_path (hash : List Nat) : List Nat × List Nat :=
  (strCodes ".git/objects/" ++ hash.take 2, hash.drop 2)

/-- `write_bytes_to_file` (lines 628-633): ensure the folder exists
(directory creation does not touch the file map), then `File::create_new`
the target — exclusive creation, `none` (an `AlreadyExists` error) if the
path is already present, otherwise the file is added with the given bytes. -/
def write_bytes_to_file (fs : Fs) (folder_path file_name content : List Nat) : Option Fs :=
  match fsFind fs (folder_path ++ [47] ++ file_name) with
  | some _ => none
  | none => some ((folder_path ++ [47] ++ file_name, content) :: fs)

/-! ## Command pipelines (src/main.rs `git_hash_object`, `git_cat_file`) -/

/-- The `git_hash_object` pipeline (lines 294-347) up to persistence, given
the bytes of the input file: `read_to_string` (fails on invalid UTF-8),
build the blob, canonically encode it, hash and compress that encoding.
Returns the printed identifier and the compressed bytes, `none` when the
command aborts with a printed error. -/
def git_hash_object_core (fileBytes : List Nat) : Option (List Nat × List Nat) :=
  match utf8Decode fileBytes with
  | none => none
  | some content =>
    match GitObject.as_string (.Blob content) with
    | none => none
    | some s => some (compute_sha1_hash s, zlib_compression s)

/-- `git_hash_object` with `-w` (lines 294-347), acting on the modelled
filesystem: on a write error the command prints it and still prints the
hash, leaving the store as it was. -/
def git_hash_object_write (fs : Fs) (fileBytes : List Nat) : Option (List Nat × Fs) :=
  match utf8Decode fileBytes with
  | none => none
  | some content =>
    match GitObject.as_string (.Blob content) with
    | none => none
    | some s =>
      match write_bytes_to_file fs (sha1_to_file_path (compute_sha1_hash s)).1
          (sha1_to_file_path (compute_sha1_hash s)).2 (zlib_compression s) with
      | some fs2 => some (compute_sha1_hash s, fs2)
      | none => some (compute_sha1_hash s, fs)

/-- The `git_cat_file` pipeline (lines 223-292) from the stored file bytes:
zlib-decompress, `String::from_utf8` (fails on non-UTF-8), parse the header,
build the object, return the blob content that `-p` prints.  `none` when the
command aborts with a printed error. -/
def git_cat_file_core (fileBytes : List Nat) : Option (List Nat) :=
  match zlib_decompression fileBytes with
  | none => none
  | some decompressed =>
    match utf8Decode decompressed with
    | none => none
    | some content =>
      match parse_str_to_git_object_parts_string content with
      | .ok parts =>
        match GitObject.from_parts_string parts with
        | .ok (.Blob c) => some c
        | _ => none
      | _ => none

/-- The canonical blob encoding that `GitObject::as_string` produces:
`"blob "`, the decimal byte length, a NUL, the content. -/
def blobCanonical (cs : List Nat) : List Nat :=
  strCodes "blob " ++ decimalCodes (utf8Encode cs).length ++ [0] ++ cs

/-! ## Concrete payloads used by counterexamples -/

/-- The spec's concrete directory-listing scenario: one entry with mode
digits `40000`, name `src`, and a 20-zero-byte hash. -/
def zeroHashPayload : List Nat := strCodes "40000 src" ++ [0] ++ List.replicate 20 0

/-- A single tree entry whose 20-byte hash starts with a NUL byte. -/
def nulHashPayload : List Nat := strCodes "40000 a" ++ [0] ++ (0 :: List.replicate 19 1)

/-- Result of one store of the payload `hi` into the empty filesystem. -/
def demoStore : Option (List Nat × Fs) := git_hash_object_write [] (strCodes "hi")

/-- The identifier printed by the demo store. -/
def demoId : List Nat := (demoStore.map Prod.fst).getD []

/-- The filesystem left by the demo store. -/
def demoFs : Fs := (demoStore.map Prod.snd).getD []

/-! ## Synthesized directory-listing payloads (for the tree-parsing claims)

These builders construct payloads per the grammar
`entry := mode-ascii-digits SP name-bytes NUL 20-raw-hash-bytes`. -/

/-- Input data of one synthesized tree entry: a mode variant, name bytes,
and 20 raw hash bytes. -/
structure EntrySpec where
  mode : EntryMode
  name : List Nat
  hash : List Nat

/-- The ASCII digits of a mode's numeric code (`100644`, `100755`, `120000`,
`40000`). -/
def EntryMode.modeDigits (m : EntryMode) : List Nat := decimalCodes m.modeValue

/-- One encoded entry: digits, space, name, NUL, hash bytes. -/
def encodeTreeEntry (e : EntrySpec) : List Nat :=
  e.mode.modeDigits ++ [32] ++ e.name ++ [0] ++ e.hash

/-- A whole directory-listing payload: entries concatenated with no
delimiter. -/
def encodeTreeEntries (es : List EntrySpec) : List Nat := (es.map encodeTreeEntry).flatten

/-- Well-formedness of a synthesized entry: name bytes are non-NUL bytes,
and the hash is exactly 20 non-NUL bytes. -/
def entryWF (e : EntrySpec) : Prop :=
  (∀ b ∈ e.name, b ≠ 0 ∧ b < 256) ∧ e.hash.length = 20 ∧ ∀ b ∈ e.hash, b ≠ 0 ∧ b < 256

instance (e : EntrySpec) : Decidable (entryWF e) := by
  unfold entryWF; infer_instance

/-- A two-entry demonstration payload (directory and regular file, the
file's name containing a space after the first one). -/
def demoEntries : List EntrySpec :=
  [⟨.Directory, strCodes "src", List.replicate 20 1⟩,
   ⟨.RegularFile, strCodes "a b", (List.range 20).map (fun i => i + 1)⟩]

/-- Recursive characterization of `tree_entry_end_pos`: position of each NUL
byte plus 21, built structurally. -/
def zp : List Nat → List Nat
  | [] => []
  | x :: l => if x = 0 then 21 :: (zp l).map (fun i => i + 1) else (zp l).map (fun i => i + 1)

/-- Running end positions of a list of blocks laid out starting at `prev`. -/
def partialSums : Nat → List (List Nat) → List Nat
  | _, [] => []
  | prev, b :: t => (prev + b.length) :: partialSums (prev + b.length) t

/-! ## UTF-8 lemmas -/

theorem encodeChar_ne_nil (c : Nat) : encodeChar c ≠ [] := by
  unfold encodeChar; split_ifs <;> simp

theorem encodeChar_length_pos (c : Nat) : 0 < (encodeChar c).length :=
  List.length_pos.mpr (encodeChar_ne_nil c)

theorem decodeOne_encodeChar (c : Nat) (h : ValidScalar c) (t : List Nat) :
    decodeOne (encodeChar c ++ t) = some (c, t) := by
  obtain ⟨h1, h2⟩ := h
  by_cases hc1 : c < 128
  · simp [encodeChar, hc1, decodeOne]
  · by_cases hc2 : c < 2048
    · simp only [encodeChar, if_neg hc1, if_pos hc2, List.cons_append, List.nil_append]
      simp only [decodeOne]
      rw [if_neg (by omega), if_neg (by omega), if_pos (by omega), if_pos (by omega)]
      simp only [Option.some.injEq, Prod.mk.injEq]
      refine ⟨by omega, ?_⟩
      first | rfl | trivial
    · by_cases hc3 : c < 65536
      · simp only [encodeChar, if_neg hc1, if_neg hc2, if_pos hc3, List.cons_append,
          List.nil_append]
        simp only [decodeOne]
        rw [if_neg (by omega), if_neg (by omega), if_neg (by omega), if_pos (by omega),
          if_pos (by omega), if_pos (by omega)]
        simp only [Option.some.injEq, Prod.mk.injEq]
        exact ⟨by omega, trivial⟩
      · simp only [encodeChar, if_neg hc1, if_neg hc2, if_neg hc3, List.cons_append,
          List.nil_append]
        simp only [decodeOne]
        rw [if_neg (by omega), if_neg (by omega), if_neg (by omega), if_neg (by omega),
          if_pos (by omega), if_pos (by omega), if_pos (by omega)]
        simp only [Option.some.injEq, Prod.mk.injEq]
        exact ⟨by omega, trivial⟩

theorem decodeOne_inv : ∀ {bs : List Nat} {c : Nat} {r : List Nat},
    decodeOne bs = some (c, r) → encodeChar c ++ r = bs ∧ ValidScalar c := by
  intro bs c r h
  cases bs with
  | nil => simp [decodeOne] at h
  | cons b rest =>
    by_cases hb1 : b < 128
    · simp [decodeOne, hb1] at h
      obtain ⟨rfl, rfl⟩ := h
      exact ⟨by simp [encodeChar, hb1], by constructor <;> omega⟩
    · by_cases hb2 : b < 194
      · simp [decodeOne, hb1, hb2] at h
      · by_cases hb3 : b < 224
        · cases rest with
          | nil => simp [decodeOne, hb1, hb2, hb3] at h
          | cons b1 r1 =>
            simp only [decodeOne, if_neg hb1, if_neg hb2, if_pos hb3] at h
            by_cases hcont : 128 ≤ b1 ∧ b1 < 192
            · rw [if_pos hcont] at h
              simp only [Option.some.injEq, Prod.mk.injEq] at h
              obtain ⟨rfl, rfl⟩ := h
              refine ⟨?_, by omega, by omega⟩
              simp only [encodeChar]
              rw [if_neg (by omega), if_pos (by omega)]
              simp only [List.cons_append, List.nil_append, List.cons.injEq]
              exact ⟨by omega, by omega, trivial⟩
            · rw [if_neg hcont] at h; exact absurd h (by simp)
        · by_cases hb4 : b < 240
          · match rest with
            | [] => simp [decodeOne, hb1, hb2, hb3, hb4] at h
            | [b1] => simp [decodeOne, hb1, hb2, hb3, hb4] at h
            | b1 :: b2 :: r2 =>
              simp only [decodeOne, if_neg hb1, if_neg hb2, if_neg hb3, if_pos hb4] at h
              by_cases hcont : 128 ≤ b1 ∧ b1 < 192 ∧ 128 ≤ b2 ∧ b2 < 192
              · rw [if_pos hcont] at h
                by_cases hrange : 2048 ≤ 4096 * (b - 224) + 64 * (b1 - 128) + (b2 - 128) ∧
                    ¬ (55296 ≤ 4096 * (b - 224) + 64 * (b1 - 128) + (b2 - 128) ∧
                       4096 * (b - 224) + 64 * (b1 - 128) + (b2 - 128) ≤ 57343)
                · rw [if_pos hrange] at h
                  simp only [Option.some.injEq, Prod.mk.injEq] at h
                  obtain ⟨rfl, rfl⟩ := h
                  refine ⟨?_, by omega, by omega⟩
                  simp only [encodeChar]
                  rw [if_neg (by omega), if_neg (by omega), if_pos (by omega)]
                  simp only [List.cons_append, List.nil_append, List.cons.injEq]
                  exact ⟨by omega, by omega, by omega, trivial⟩
                · rw [if_neg hrange] at h; exact absurd h (by simp)
              · rw [if_neg hcont] at h; exact absurd h (by simp)
          · by_cases hb5 : b < 245
            · match rest with
              | [] => simp [decodeOne, hb1, hb2, hb3, hb4, hb5] at h
              | [b1] => simp [decodeOne, hb1, hb2, hb3, hb4, hb5] at h
              | [b1, b2] => simp [decodeOne, hb1, hb2, hb3, hb4, hb5] at h
              | b1 :: b2 :: b3 :: r3 =>
                simp only [decodeOne, if_neg hb1, if_neg hb2, if_neg hb3, if_neg hb4,
                  if_pos hb5] at h
                by_cases hcont : 128 ≤ b1 ∧ b1 < 192 ∧ 128 ≤ b2 ∧ b2 < 192 ∧ 128 ≤ b3 ∧ b3 < 192
                · rw [if_pos hcont] at h
                  by_cases hrange :
                      65536 ≤ 262144 * (b - 240) + 4096 * (b1 - 128) + 64 * (b2 - 128) + (b3 - 128) ∧
                      262144 * (b - 240) + 4096 * (b1 - 128) + 64 * (b2 - 128) + (b3 - 128) < 1114112
                  · rw [if_pos hrange] at h
                    simp only [Option.some.injEq, Prod.mk.injEq] at h
                    obtain ⟨rfl, rfl⟩ := h
                    refine ⟨?_, by omega, by omega⟩
                    simp only [encodeChar]
                    rw [if_neg (by omega), if_neg (by omega), if_neg (by omega)]
                    simp only [List.cons_append, List.nil_append, List.cons.injEq]
                    exact ⟨by omega, by omega, by omega, by omega, trivial⟩
                  · rw [if_neg hrange] at h; exact absurd h (by simp)
                · rw [if_neg hcont] at h; exact absurd h (by simp)
            · simp [decodeOne, hb1, hb2, hb3, hb4, hb5] at h

theorem decodeOne_consumes : ∀ {bs : List Nat} {c : Nat} {r : List Nat},
    decodeOne bs = some (c, r) → r.length < bs.length := by
  intro bs c r h
  have hinv := decodeOne_inv h
  have h2 := congrArg List.length hinv.1
  simp only [List.length_append] at h2
  have h3 := encodeChar_length_pos c
  omega

theorem utf8DecodeF_encode : ∀ (cs : List Nat) (fuel : Nat),
    (∀ c ∈ cs, ValidScalar c) → (utf8Encode cs).length ≤ fuel →
    utf8DecodeF fuel (utf8Encode cs) = some cs := by
  intro cs
  induction cs with
  | nil => intro fuel _ _; cases fuel <;> simp [utf8Encode, utf8DecodeF]
  | cons c t ih =>
    intro fuel hv hf
    have hvc : ValidScalar c := hv c (by simp)
    have henc : utf8Encode (c :: t) = encodeChar c ++ utf8Encode t := by
      simp [utf8Encode]
    rw [henc] at hf ⊢
    obtain ⟨b, bs, hb⟩ : ∃ b bs, encodeChar c ++ utf8Encode t = b :: bs := by
      cases hE : encodeChar c with
      | nil => exact absurd hE (encodeChar_ne_nil c)
      | cons x xs => exact ⟨x, xs ++ utf8Encode t, by simp [hE]⟩
    have hlen : (utf8Encode t).length + 1 ≤ fuel := by
      have := congrArg List.length hb
      simp only [List.length_append, List.length_cons] at this hf
      have := encodeChar_length_pos c
      omega
    cases fuel with
    | zero => omega
    | succ f =>
      rw [hb]
      simp only [utf8DecodeF]
      rw [← hb, decodeOne_encodeChar c hvc]
      change (utf8DecodeF f (utf8Encode t)).map (fun cs => c :: cs) = some (c :: t)
      rw [ih f (fun x hx => hv x (by simp [hx])) (by omega)]
      rfl

theorem utf8DecodeF_inv : ∀ (fuel : Nat) (bs cs : List Nat),
    bs.length ≤ fuel → utf8DecodeF fuel bs = some cs →
    utf8Encode cs = bs ∧ ∀ c ∈ cs, ValidScalar c := by
  intro fuel
  induction fuel with
  | zero =>
    intro bs cs hl h
    cases bs with
    | nil =>
      simp only [utf8DecodeF, Option.some.injEq] at h
      subst h; exact ⟨by simp [utf8Encode], by simp⟩
    | cons b t => simp at hl
  | succ f ih =>
    intro bs cs hl h
    cases bs with
    | nil =>
      simp only [utf8DecodeF, Option.some.injEq] at h
      subst h; exact ⟨by simp [utf8Encode], by simp⟩
    | cons b t =>
      simp only [utf8DecodeF] at h
      cases hd : decodeOne (b :: t) with
      | none => rw [hd] at h; simp at h
      | some p =>
        obtain ⟨c, r⟩ := p
        rw [hd] at h
        simp only [Option.map_eq_some'] at h
        obtain ⟨cs0, hcs0, rfl⟩ := h
        have hinv := decodeOne_inv hd
        have hlen := decodeOne_consumes hd
        simp only [List.length_cons] at hl hlen
        have hrec := ih r cs0 (by omega) hcs0
        constructor
        · have : utf8Encode (c :: cs0) = encodeChar c ++ utf8Encode cs0 := by
            simp [utf8Encode]
          rw [this, hrec.1, hinv.1]
        · intro x hx
          rcases List.mem_cons.mp hx with rfl | hx2
          · exact hinv.2
          · exact hrec.2 x hx2

theorem utf8Decode_encode (cs : List Nat) (h : ∀ c ∈ cs, ValidScalar c) :
    utf8Decode (utf8Encode cs) = some cs :=
  utf8DecodeF_encode cs _ h le_rfl

theorem utf8Decode_inv {bs cs : List Nat} (h : utf8Decode bs = some cs) :
    utf8Encode cs = bs ∧ ∀ c ∈ cs, ValidScalar c :=
  utf8DecodeF_inv _ bs cs le_rfl h

/-! ## Zlib round-trip lemmas -/

theorem deflateStoredF_small (k : Nat) (bs : List Nat) (h : bs.length ≤ 65535) :
    deflateStoredF k bs = 1 :: (u16le bs.length ++ u16le (65535 - bs.length) ++ bs) := by
  cases k <;> simp [deflateStoredF, h]

theorem deflateStoredF_large (f : Nat) (bs : List Nat) (h : ¬ bs.length ≤ 65535) :
    deflateStoredF (f + 1) bs =
      0 :: 255 :: 255 :: 0 :: 0 :: (bs.take 65535 ++ deflateStoredF f (bs.drop 65535)) := by
  simp only [deflateStoredF, if_neg h]
  rfl

theorem inflate_final_block (bs tail : List Nat) (fuel : Nat)
    (hf : 5 + bs.length + tail.length ≤ fuel) :
    inflateStoredF fuel ((1 :: (u16le bs.length ++ u16le (65535 - bs.length) ++ bs)) ++ tail) =
      some (bs, tail) := by
  cases fuel with
  | zero => omega
  | succ f =>
    simp only [u16le, List.cons_append, List.append_assoc, List.nil_append]
    simp only [inflateStoredF]
    rw [show bs.length % 256 + 256 * (bs.length / 256) = bs.length from by omega]
    rw [show (65535 - bs.length) % 256 + 256 * ((65535 - bs.length) / 256) = 65535 - bs.length
      from by omega]
    rw [if_pos ⟨rfl, by simp only [List.length_append]; omega⟩]
    rw [if_true]
    rw [List.take_left, List.drop_left]

theorem inflate_deflate : ∀ (k : Nat) (bs tail : List Nat) (fuel : Nat),
    bs.length ≤ k → (deflateStoredF k bs ++ tail).length ≤ fuel →
    inflateStoredF fuel (deflateStoredF k bs ++ tail) = some (bs, tail) := by
  intro k
  induction k with
  | zero =>
    intro bs tail fuel hk hf
    have hb : bs.length ≤ 65535 := by omega
    rw [deflateStoredF_small 0 bs hb] at hf ⊢
    refine inflate_final_block bs tail fuel ?_
    simp only [List.length_append, List.length_cons, u16le, List.length_nil] at hf
    omega
  | succ f ih =>
    intro bs tail fuel hk hf
    by_cases hb : bs.length ≤ 65535
    · rw [deflateStoredF_small (f + 1) bs hb] at hf ⊢
      refine inflate_final_block bs tail fuel ?_
      simp only [List.length_append, List.length_cons, u16le, List.length_nil] at hf
      omega
    · rw [deflateStoredF_large f bs hb] at hf ⊢
      have htk : (bs.take 65535).length = 65535 := by
        simp only [List.length_take]
        omega
      simp only [List.cons_append, List.append_assoc] at hf ⊢
      simp only [List.length_cons, List.length_append] at hf
      cases fuel with
      | zero => omega
      | succ g =>
        simp only [inflateStoredF]
        rw [show (255 : Nat) + 256 * 255 = 65535 from by norm_num]
        rw [if_pos ⟨trivial, by simp only [List.length_append]; omega⟩]
        rw [if_neg (by omega : ¬ (0 = 1))]
        rw [if_true]
        rw [List.drop_left' htk, List.take_left' htk]
        rw [ih (bs.drop 65535) tail g (by simp only [List.length_drop]; omega)
          (by simp only [List.length_append]; omega)]
        show some (bs.take 65535 ++ bs.drop 65535, tail) = some (bs, tail)
        rw [List.take_append_drop]

theorem zlib_round_trip_bytes (bs : List Nat) :
    zlib_decompression (zlibEncodeBytes bs) = some bs := by
  have h1 : zlib_decompression (zlibEncodeBytes bs) =
      (if (120 : Nat) % 16 = 8 ∧ ((120 : Nat) * 256 + 1) % 31 = 0 then
        match inflateStoredF (deflateStored bs ++ u32be (adler32 bs)).length
            (deflateStored bs ++ u32be (adler32 bs)) with
        | some (d, r) => if r = u32be (adler32 d) then some d else none
        | none => none
      else none) := rfl
  rw [h1, if_pos (by norm_num)]
  show (match inflateStoredF (deflateStoredF bs.length bs ++ u32be (adler32 bs)).length
      (deflateStoredF bs.length bs ++ u32be (adler32 bs)) with
    | some (d, r) => if r = u32be (adler32 d) then some d else none
    | none => none) = some bs
  rw [inflate_deflate bs.length bs (u32be (adler32 bs)) _ le_rfl le_rfl]
  show (if u32be (adler32 bs) = u32be (adler32 bs) then some bs else none) = some bs
  rw [if_pos rfl]

/-! ## Decimal rendering and scanning lemmas -/

theorem decAux_append : ∀ (fuel n : Nat) (acc : List Nat), n ≤ fuel →
    decAux fuel n acc = decAux fuel n [] ++ acc := by
  intro fuel
  induction fuel with
  | zero => intro n acc h; simp [decAux]
  | succ f ih =>
    intro n acc h
    by_cases hn : n = 0
    · simp [decAux, hn]
    · simp only [decAux, if_neg hn]
      rw [ih (n / 10) _ (by omega), ih (n / 10) [48 + n % 10] (by omega)]
      simp [List.append_assoc]

theorem decAux_digits : ∀ (fuel n b : Nat) (acc : List Nat),
    (∀ x ∈ acc, 48 ≤ x ∧ x ≤ 57) → b ∈ decAux fuel n acc → 48 ≤ b ∧ b ≤ 57 := by
  intro fuel
  induction fuel with
  | zero => intro n b acc hacc h; exact hacc b (by simpa [decAux] using h)
  | succ f ih =>
    intro n b acc hacc h
    by_cases hn : n = 0
    · rw [decAux, if_pos hn] at h; exact hacc b h
    · rw [decAux, if_neg hn] at h
      refine ih (n / 10) b ((48 + n % 10) :: acc) ?_ h
      intro x hx
      rcases List.mem_cons.mp hx with rfl | hx2
      · omega
      · exact hacc x hx2

theorem decAux_val : ∀ (fuel n : Nat), n ≤ fuel → n ≠ 0 →
    digitsVal (decAux fuel n []) = n ∧ decAux fuel n [] ≠ [] := by
  intro fuel
  induction fuel with
  | zero => intro n h h0; omega
  | succ f ih =>
    intro n h h0
    simp only [decAux, if_neg h0]
    rw [decAux_append f (n / 10) _ (by omega)]
    by_cases h10 : n / 10 = 0
    · rw [h10]
      have hz : decAux f 0 [] = [] := by cases f <;> simp [decAux]
      rw [hz]
      refine ⟨?_, by simp⟩
      simp only [List.nil_append, digitsVal, List.foldl_cons, List.foldl_nil]
      omega
    · obtain ⟨hv, hne⟩ := ih (n / 10) (by omega) h10
      refine ⟨?_, by simp⟩
      have hstep : digitsVal (decAux f (n / 10) [] ++ [48 + n % 10]) =
          digitsVal (decAux f (n / 10) []) * 10 + (48 + n % 10 - 48) := by
        simp [digitsVal, List.foldl_append]
      rw [hstep, hv]
      omega

theorem decimalCodes_digits (n b : Nat) (h : b ∈ decimalCodes n) : 48 ≤ b ∧ b ≤ 57 := by
  unfold decimalCodes at h
  by_cases hn : n = 0
  · rw [if_pos hn] at h; simp at h; omega
  · rw [if_neg hn] at h; exact decAux_digits n n b [] (by simp) h

theorem parseUsize_decimal (n : Nat) (h : n < 18446744073709551616) :
    parseUsize (decimalCodes n) = some n := by
  by_cases hn : n = 0
  · subst hn; decide
  · unfold decimalCodes
    rw [if_neg hn]
    obtain ⟨hv, hne⟩ := decAux_val n n le_rfl hn
    have hhead : (decAux n n []).headD 0 ≠ 43 := by
      cases hE : decAux n n [] with
      | nil => exact absurd hE hne
      | cons x xs =>
        have := decAux_digits n n x [] (by simp) (by simp [hE])
        simp only [List.headD_cons]
        omega
    simp only [parseUsize, if_neg hhead]
    rw [if_pos ⟨hne, fun b hb => decAux_digits n n b [] (by simp) hb⟩]
    rw [if_pos (by rw [hv]; exact h)]
    rw [hv]

theorem scanUntil_append (t : Nat) : ∀ (pre post : List Nat), t ∉ pre →
    scanUntil t (pre ++ t :: post) = some (pre, post) := by
  intro pre
  induction pre with
  | nil => intro post _; simp [scanUntil]
  | cons b bs ih =>
    intro post hmem
    have hb : ¬ (b = t) := fun hbt => hmem (by simp [hbt])
    simp only [List.cons_append, scanUntil, if_neg hb, List.append_eq]
    rw [ih post (fun hm => hmem (by simp [hm]))]
    rfl

theorem splitOnce_append (t : Nat) : ∀ (pre post : List Nat), t ∉ pre →
    splitOnce t (pre ++ t :: post) = some (pre, post) := by
  intro pre
  induction pre with
  | nil => intro post _; simp [splitOnce]
  | cons b bs ih =>
    intro post hmem
    have hb : ¬ (b = t) := fun hbt => hmem (by simp [hbt])
    simp only [List.cons_append, splitOnce, if_neg hb, List.append_eq]
    rw [ih post (fun hm => hmem (by simp [hm]))]
    rfl

/-! ## The canonical blob encoding and its properties -/

theorem as_string_blob (cs : List Nat) :
    GitObject.as_string (.Blob cs) = some (blobCanonical cs) := rfl

theorem blobCanonical_valid (cs : List Nat) (h : ∀ c ∈ cs, ValidScalar c) :
    ∀ c ∈ blobCanonical cs, ValidScalar c := by
  intro x hx
  unfold blobCanonical at hx
  simp only [List.append_assoc, List.mem_append] at hx
  rcases hx with hx | hx | hx | hx
  · have he : strCodes "blob " = [98, 108, 111, 98, 32] := rfl
    rw [he] at hx
    simp at hx
    rcases hx with rfl | rfl | rfl | rfl | rfl <;> decide
  · have := decimalCodes_digits (utf8Encode cs).length x hx
    exact ⟨by omega, by omega⟩
  · simp at hx; subst hx; decide
  · exact h x hx

/-! ## Filesystem write lemmas -/

theorem fsFind_head (path c : List Nat) (fs : Fs) : fsFind ((path, c) :: fs) path = some c := by
  simp [fsFind]

theorem write_some {fs : Fs} {f n c : List Nat} {fs2 : Fs}
    (h : write_bytes_to_file fs f n c = some fs2) :
    fs2 = (f ++ [47] ++ n, c) :: fs := by
  unfold write_bytes_to_file at h
  cases hf : fsFind fs (f ++ [47] ++ n) with
  | some _ => rw [hf] at h; simp at h
  | none =>
    rw [hf] at h
    simp only [Option.some.injEq] at h
    exact h.symm

/-! ## UTF-8 length lemmas (for the name byte/char relationship) -/

theorem utf8Encode_len_ge (l : List Nat) : l.length ≤ (utf8Encode l).length := by
  induction l with
  | nil => simp [utf8Encode]
  | cons b t ih =>
    have : utf8Encode (b :: t) = encodeChar b ++ utf8Encode t := by simp [utf8Encode]
    rw [this]
    simp only [List.length_append, List.length_cons]
    have := encodeChar_length_pos b
    omega

theorem utf8Encode_fixed_iff (n : List Nat) : utf8Encode n = n ↔ ∀ b ∈ n, b < 128 := by
  induction n with
  | nil => simp [utf8Encode]
  | cons b t ih =>
    have hcons : utf8Encode (b :: t) = encodeChar b ++ utf8Encode t := by simp [utf8Encode]
    constructor
    · intro h
      rw [hcons] at h
      by_cases hb : b < 128
      · rw [show encodeChar b = [b] from by simp [encodeChar, hb]] at h
        simp only [List.cons_append, List.nil_append, List.cons.injEq, true_and] at h
        intro x hx
        rcases List.mem_cons.mp hx with rfl | hx2
        · exact hb
        · exact (ih.mp h) x hx2
      · exfalso
        have hlen := congrArg List.length h
        simp only [List.length_append, List.length_cons] at hlen
        have h2 : 2 ≤ (encodeChar b).length := by
          unfold encodeChar
          rw [if_neg hb]
          split_ifs <;> simp
        have := utf8Encode_len_ge t
        omega
    · intro h
      have hb : b < 128 := h b (by simp)
      rw [hcons, show encodeChar b = [b] from by simp [encodeChar, hb]]
      simp only [List.cons_append, List.nil_append, List.cons.injEq, true_and]
      exact ih.mpr (fun x hx => h x (by simp [hx]))

/-! ## Tree-payload boundary lemmas (for the tree-parsing round trip) -/

theorem enumFrom_zeros : ∀ (v : List Nat) (k : Nat),
    ((List.enumFrom k v).filter (fun p => p.2 == 0)).map (fun p => p.1 + 21) =
      (zp v).map (fun i => i + k) := by
  intro v
  induction v with
  | nil => intro k; simp [List.enumFrom, zp]
  | cons x l ih =>
    intro k
    simp only [List.enumFrom, List.filter_cons, zp]
    by_cases hx : x = 0
    · subst hx
      rw [if_pos (by simp), if_pos rfl]
      rw [List.map_cons, List.map_cons, ih (k + 1), List.map_map]
      refine congrArg₂ List.cons (by omega) ?_
      congr 1
      funext i
      simp only [Function.comp_apply]
      omega
    · rw [if_neg (by simp [hx]), if_neg hx]
      rw [ih (k + 1), List.map_map]
      congr 1
      funext i
      simp only [Function.comp_apply]
      omega

theorem tree_entry_end_pos_eq (v : List Nat) : tree_entry_end_pos v = zp v := by
  unfold tree_entry_end_pos
  rw [show v.enum = List.enumFrom 0 v from rfl]
  rw [enumFrom_zeros v 0]
  simp


theorem zp_append : ∀ (a b : List Nat), zp (a ++ b) = zp a ++ (zp b).map (fun i => i + a.length) := by
  intro a
  induction a with
  | nil => intro b; simp [zp]
  | cons x l ih =>
    intro b
    simp only [List.cons_append, zp, ih, List.length_cons, List.append_eq]
    by_cases hx : x = 0
    · rw [if_pos hx, if_pos hx]
      simp only [List.map_append, List.map_map, List.cons_append, List.cons.injEq, true_and]
      congr 1
    · rw [if_neg hx, if_neg hx]
      simp only [List.map_append, List.map_map]
      congr 1

theorem zp_no_zero : ∀ (a : List Nat), (∀ b ∈ a, b ≠ 0) → zp a = [] := by
  intro a
  induction a with
  | nil => intro _; simp [zp]
  | cons x l ih =>
    intro h
    rw [zp, if_neg (h x (by simp)), ih (fun b hb => h b (by simp [hb]))]
    simp

theorem partialSums_map : ∀ (t : List (List Nat)) (a c : Nat),
    (partialSums a t).map (fun i => i + c) = partialSums (a + c) t := by
  intro t
  induction t with
  | nil => intro a c; simp [partialSums]
  | cons b t ih =>
    intro a c
    simp only [partialSums, List.map_cons, ih]
    rw [show a + b.length + c = a + c + b.length from by omega]

theorem zp_join : ∀ (blocks : List (List Nat)),
    (∀ b ∈ blocks, zp b = [b.length]) → zp blocks.flatten = partialSums 0 blocks := by
  intro blocks
  induction blocks with
  | nil => intro _; simp [zp, partialSums]
  | cons b t ih =>
    intro hb
    rw [show (b :: t).flatten = b ++ t.flatten from rfl]
    rw [zp_append, hb b (by simp), ih (fun x hx => hb x (by simp [hx]))]
    rw [partialSums_map t 0 b.length]
    simp [partialSums]

theorem extractFromAux_spec : ∀ (bs : List (List Nat)) (vec : List Nat) (prev : Nat),
    prev ≤ vec.length → vec.drop prev = bs.flatten →
    extractFromAux vec (partialSums prev bs) prev = some bs := by
  intro bs
  induction bs with
  | nil => intro vec prev h1 h2; simp [partialSums, extractFromAux]
  | cons b t ih =>
    intro vec prev h1 h2
    simp only [partialSums, extractFromAux]
    have hlenflat : (vec.drop prev).length = b.length + t.flatten.length := by
      rw [h2]; simp [List.length_append]
    have hlen : prev + b.length ≤ vec.length := by
      simp only [List.length_drop] at hlenflat
      omega
    rw [if_pos ⟨by omega, hlen⟩]
    have hflat : (b :: t).flatten = b ++ t.flatten := rfl
    have hdrop : vec.drop (prev + b.length) = t.flatten := by
      have hdd : vec.drop (prev + b.length) = (vec.drop prev).drop b.length := by
        rw [List.drop_drop]
      rw [hdd, h2, hflat, List.drop_left]
    rw [ih vec (prev + b.length) hlen hdrop]
    have hslice : (vec.drop prev).take (prev + b.length - prev) = b := by
      rw [show prev + b.length - prev = b.length from by omega, h2, hflat]
      exact List.take_left b t.flatten
    rw [hslice]


theorem modeDigits_spec (m : EntryMode) :
    parseUsize m.modeDigits = some m.modeValue ∧
    EntryMode.from_mode_value m.modeValue = .ok m ∧
    ∀ b ∈ m.modeDigits, 48 ≤ b ∧ b ≤ 57 := by
  cases m <;> exact ⟨by decide, by decide, by decide⟩

theorem zp_encodeTreeEntry (e : EntrySpec) (he : entryWF e) :
    zp (encodeTreeEntry e) = [(encodeTreeEntry e).length] := by
  obtain ⟨hname, hlen, hhash⟩ := he
  obtain ⟨_, _, hd⟩ := modeDigits_spec e.mode
  have hshape : encodeTreeEntry e =
      (e.mode.modeDigits ++ [32] ++ e.name) ++ (0 :: e.hash) := by
    unfold encodeTreeEntry
    simp [List.append_assoc]
  rw [hshape, zp_append]
  have hA : zp (e.mode.modeDigits ++ [32] ++ e.name) = [] := by
    refine zp_no_zero _ ?_
    intro b hb
    simp only [List.append_assoc, List.mem_append] at hb
    rcases hb with hb | hb | hb
    · have := hd b hb; omega
    · simp at hb; omega
    · exact (hname b hb).1
  have hB : zp (0 :: e.hash) = [21] := by
    rw [zp, if_pos rfl, zp_no_zero e.hash (fun b hb => (hhash b hb).1)]
    simp
  rw [hA, hB]
  simp only [List.nil_append, List.map_cons, List.map_nil, List.length_append,
    List.length_cons]
  congr 1
  omega

theorem parse_entry_block (e : EntrySpec) (he : entryWF e) :
    TreeEntry.from_bytes (encodeTreeEntry e) =
      .ok ⟨e.mode, e.name, bytes_slice_to_hex e.hash⟩ := by
  obtain ⟨hname, hlen, hhash⟩ := he
  obtain ⟨hp, hm, hd⟩ := modeDigits_spec e.mode
  have hshape : encodeTreeEntry e = e.mode.modeDigits ++ (32 :: (e.name ++ 0 :: e.hash)) := by
    unfold encodeTreeEntry
    simp [List.append_assoc]
  have hscan1 : scanUntil 32 (encodeTreeEntry e) =
      some (e.mode.modeDigits, e.name ++ 0 :: e.hash) := by
    rw [hshape]
    exact scanUntil_append 32 _ _ (fun hm32 => by have := hd 32 hm32; omega)
  have hscan2 : scanUntil 0 (e.name ++ 0 :: e.hash) = some (e.name, e.hash) :=
    scanUntil_append 0 _ _ (fun hm0 => (hname 0 hm0).1 rfl)
  unfold TreeEntry.from_bytes
  simp only [parse_tree_entry_bytes, hscan1, hscan2, hp, hm]

theorem treeEntries_map (es : List EntrySpec) (h : ∀ e ∈ es, entryWF e) :
    treeEntriesFromSlices (es.map encodeTreeEntry) =
      .ok (es.map fun e => ⟨e.mode, e.name, bytes_slice_to_hex e.hash⟩) := by
  induction es with
  | nil => simp [treeEntriesFromSlices]
  | cons e t ih =>
    simp only [List.map_cons, treeEntriesFromSlices,
      parse_entry_block e (h e (by simp)), ih (fun x hx => h x (by simp [hx]))]

theorem hexDigitCode_range (d : Nat) (h : d < 16) :
    (48 ≤ hexDigitCode d ∧ hexDigitCode d ≤ 57) ∨ (97 ≤ hexDigitCode d ∧ hexDigitCode d ≤ 102) := by
  unfold hexDigitCode
  split_ifs <;> omega

theorem bytes_slice_to_hex_length (hs : List Nat) :
    (bytes_slice_to_hex hs).length = 2 * hs.length := by
  induction hs with
  | nil => simp [bytes_slice_to_hex]
  | cons b t ih =>
    unfold bytes_slice_to_hex at ih ⊢
    simp only [List.map_cons, List.flatten_cons, List.length_append, ih, byteHexCodes,
      List.length_cons, List.length_nil]
    omega

theorem bytes_slice_to_hex_chars (hs : List Nat) (hb : ∀ b ∈ hs, b < 256) :
    ∀ c ∈ bytes_slice_to_hex hs, (48 ≤ c ∧ c ≤ 57) ∨ (97 ≤ c ∧ c ≤ 102) := by
  intro c hc
  unfold bytes_slice_to_hex at hc
  rw [List.mem_flatten] at hc
  obtain ⟨l, hl, hcl⟩ := hc
  rw [List.mem_map] at hl
  obtain ⟨b, hbm, rfl⟩ := hl
  have hb256 := hb b hbm
  unfold byteHexCodes at hcl
  simp only [List.mem_cons, List.not_mem_nil, or_false] at hcl
  rcases hcl with rfl | rfl
  · exact hexDigitCode_range _ (by omega)
  · exact hexDigitCode_range _ (by omega)

/-! ## Claim theorems -/

/-- C2: the spec asserts that the directory-listing payload
`"40000 src\0" ++ 20 zero bytes` parses to one directory entry named `src`
with a 40-`'0'` identifier.  The code does not: every hash zero byte also
produces an end position (`tree_entry_end_pos`), the bogus boundary 31
exceeds the 30-byte payload, and the slicing in `extract_from_vec_at`
panics.  This theorem evaluates the parser at the spec's exact payload. -/
theorem tree_parse_zero_hash_panics :
    parse_str_tree_entry_vec zeroHashPayload = .panic ∧
    parse_str_tree_entry_vec zeroHashPayload ≠
      .ok [⟨.Directory, strCodes "src", List.replicate 40 48⟩] := by
  constructor
  · decide
  · decide

/-- C3: structural violations do not all return `MalformedObject`
(`InvalidGitObject`): a header without a NUL or without a space makes the
byte scanner index past the end of the slice (a panic), and a
directory-listing payload whose last NUL is followed by fewer than 20 bytes
makes the slicing panic; only the non-numeric size field actually returns
the error. -/
theorem decode_malformed_eval :
    parse_str_to_git_object_parts_bytes (strCodes "blob 3abc") = .panic ∧
    parse_str_to_git_object_parts_bytes (strCodes "blob3") = .panic ∧
    parse_str_to_git_object_parts_bytes (strCodes "blob x" ++ [0] ++ strCodes "abc") =
      .err .InvalidGitObject ∧
    parse_str_tree_entry_vec (strCodes "100644 a" ++ [0] ++ [1, 2, 3]) = .panic := by
  refine ⟨by decide, by decide, by decide, by decide⟩

/-- C4 counterexample: a size mismatch does not fail with an error kind
distinct from the structural `MalformedObject` error — the source has no
`SizeMismatch` variant, and the mismatch produces exactly the same
`InvalidGitObject` value that a structural violation (here: a header with no
NUL) produces. -/
theorem size_mismatch_same_kind :
    GitObject.from_parts_string ⟨strCodes "blob", 5, strCodes "health"⟩ =
      .err .InvalidGitObject ∧
    parse_str_to_git_object_parts_string (strCodes "blob 3abc") =
      .err .InvalidGitObject := by
  refine ⟨by decide, by decide⟩

/-- C5: storing the 6-byte content `"hello\n"` canonicalizes to the 13-byte
sequence `blob 6\0hello\n`, the printed identifier is the lowercase-hex
SHA-1 digest of exactly those 13 bytes, and those same canonical bytes are
what gets compressed. -/
theorem blob_hello_canonical :
    GitObject.as_string (.Blob (strCodes "hello\n")) =
      some (strCodes "blob 6" ++ [0] ++ strCodes "hello\n") ∧
    (strCodes "blob 6" ++ [0] ++ strCodes "hello\n").length = 13 ∧
    compute_sha1_hash (strCodes "blob 6" ++ [0] ++ strCodes "hello\n") =
      strCodes "ce013625030ba8dba906f756967f9e9ca394464a" ∧
    git_hash_object_core (strCodes "hello\n") =
      some (strCodes "ce013625030ba8dba906f756967f9e9ca394464a",
        zlib_compression (strCodes "blob 6" ++ [0] ++ strCodes "hello\n")) := by
  refine ⟨by decide, by decide, by decide, by decide⟩

/-- C8: `EntryMode::from_mode_value` maps exactly 100644, 100755, 120000 and
40000 to the four mode variants, and every other value fails with
`UnknownEntryMode`. -/
theorem entry_mode_mapping :
    EntryMode.from_mode_value 100644 = .ok .RegularFile ∧
    EntryMode.from_mode_value 100755 = .ok .ExecutableFile ∧
    EntryMode.from_mode_value 120000 = .ok .SymbolicLink ∧
    EntryMode.from_mode_value 40000 = .ok .Directory ∧
    ∀ v, v ≠ 100644 → v ≠ 100755 → v ≠ 120000 → v ≠ 40000 →
      EntryMode.from_mode_value v = .err .UnknownEntryMode := by
  refine ⟨rfl, rfl, rfl, rfl, ?_⟩
  intro v h1 h2 h3 h4
  simp [EntryMode.from_mode_value, h1, h2, h3, h4]

/-- C8 witness: mode code 999999 fails with `UnknownEntryMode`. -/
theorem entry_mode_mapping_witness :
    EntryMode.from_mode_value 999999 = .err .UnknownEntryMode :=
  entry_mode_mapping.2.2.2.2 999999 (by decide) (by decide) (by decide) (by decide)


/-- C6: the compressor round-trips losslessly: decompressing the compression
of any byte sequence yields that sequence exactly (stated for the byte-level
codec on arbitrary byte lists, including non-UTF-8 ones), and through the
string-typed `zlib_compression` wrapper the decompression returns exactly
the UTF-8 bytes that were compressed. -/
theorem zlib_round_trip :
    (∀ bs : List Nat, zlib_decompression (zlibEncodeBytes bs) = some bs) ∧
    (∀ s : List Nat, zlib_decompression (zlib_compression s) = some (utf8Encode s)) := by
  refine ⟨zlib_round_trip_bytes, fun s => ?_⟩
  unfold zlib_compression
  exact zlib_round_trip_bytes (utf8Encode s)

/-- C4 (amended): a declared size differing from the exact payload byte
length always fails — but with `InvalidGitObject`, the same error kind used
for structural violations (the source has no separate `SizeMismatch`
variant) — and never succeeds with truncated or padded content; equal sizes
pass the check (the blob and tree constructions then proceed). -/
theorem size_check_enforced :
    (∀ (gt : List Nat) (sz : Nat) (c : List Nat), sz ≠ (utf8Encode c).length →
      GitObject.from_parts_string ⟨gt, sz, c⟩ = .err .InvalidGitObject) ∧
    (∀ c : List Nat, GitObject.from_parts_string ⟨strCodes "blob", (utf8Encode c).length, c⟩ =
      .ok (.Blob c)) ∧
    (∀ (gt : List Nat) (sz : Nat) (c : List Nat), sz ≠ c.length →
      GitObject.from_parts_bytes ⟨gt, sz, c⟩ = .err .InvalidGitObject) ∧
    (∀ c : List Nat, GitObject.from_parts_bytes ⟨strCodes "tree", c.length, c⟩ =
      match parse_str_tree_entry_vec c with
      | .ok entries => .ok (.Tree entries)
      | .err e => .err e
      | .panic => .panic) := by
  refine ⟨?_, ?_, ?_, ?_⟩
  · intro gt sz c h; simp [GitObject.from_parts_string, h]
  · intro c; simp [GitObject.from_parts_string]
  · intro gt sz c h; simp [GitObject.from_parts_bytes, h]
  · intro c; simp [GitObject.from_parts_bytes]

/-- C4 witness: a mismatched size (5 declared, 6 actual) fails for the
string decoder, and likewise for the byte decoder (2 declared, 1 actual). -/
theorem size_check_enforced_witness :
    GitObject.from_parts_string ⟨strCodes "blob", 5, strCodes "health"⟩ =
      .err .InvalidGitObject ∧
    GitObject.from_parts_bytes ⟨strCodes "tree", 2, [1]⟩ = .err .InvalidGitObject :=
  ⟨size_check_enforced.1 _ _ _ (by decide), size_check_enforced.2.2.1 _ _ _ (by decide)⟩

/-- C7 counterexample: the blob operations do not tolerate arbitrary bytes —
storing the single byte 0xFF fails (`read_to_string` rejects non-UTF-8
input), and retrieving a stored object whose payload is the byte 0xFF fails
(`String::from_utf8` rejects it after decompression). -/
theorem blob_non_utf8_fails :
    git_hash_object_core [255] = none ∧
    git_cat_file_core (zlibEncodeBytes (strCodes "blob 1" ++ [0] ++ [255])) = none := by
  refine ⟨by decide, by decide⟩

/-- C7 (amended): storing succeeds exactly for payloads that are valid UTF-8
text (below the 2^64 usize bound): the store produces the identifier and
compressed bytes of the canonical encoding, and retrieving those stored
bytes succeeds and returns the stored text. -/
theorem blob_utf8_round_trip (fbs cs : List Nat)
    (hdec : utf8Decode fbs = some cs) (hlen : fbs.length < 18446744073709551616) :
    git_hash_object_core fbs =
      some (compute_sha1_hash (blobCanonical cs), zlib_compression (blobCanonical cs)) ∧
    git_cat_file_core (zlib_compression (blobCanonical cs)) = some cs := by
  obtain ⟨henc, hval⟩ := utf8Decode_inv hdec
  constructor
  · unfold git_hash_object_core
    rw [hdec]
    rfl
  · have hsplit0 : splitOnce 0 (blobCanonical cs) =
        some (strCodes "blob " ++ decimalCodes (utf8Encode cs).length, cs) := by
      have hshape : blobCanonical cs =
          (strCodes "blob " ++ decimalCodes (utf8Encode cs).length) ++ (0 :: cs) := by
        simp [blobCanonical, List.append_assoc]
      rw [hshape]
      refine splitOnce_append 0 _ cs ?_
      intro hmem
      rcases List.mem_append.mp hmem with hm | hm
      · have : strCodes "blob " = [98, 108, 111, 98, 32] := rfl
        rw [this] at hm; simp at hm
      · have := decimalCodes_digits (utf8Encode cs).length 0 hm
        omega
    have hsplit32 : splitOnce 32 (strCodes "blob " ++ decimalCodes (utf8Encode cs).length) =
        some (strCodes "blob", decimalCodes (utf8Encode cs).length) := by
      have hshape : strCodes "blob " ++ decimalCodes (utf8Encode cs).length =
          strCodes "blob" ++ (32 :: decimalCodes (utf8Encode cs).length) := rfl
      rw [hshape]
      refine splitOnce_append 32 _ _ ?_
      intro hmem
      have : strCodes "blob" = [98, 108, 111, 98] := rfl
      rw [this] at hmem; simp at hmem
    have hparse : parseUsize (decimalCodes (utf8Encode cs).length) =
        some (utf8Encode cs).length := by
      refine parseUsize_decimal _ ?_
      rw [henc]
      exact hlen
    have hfromparts : GitObject.from_parts_string ⟨strCodes "blob", (utf8Encode cs).length, cs⟩ =
        .ok (.Blob cs) := by simp [GitObject.from_parts_string]
    unfold git_cat_file_core
    rw [show zlib_compression (blobCanonical cs) =
        zlibEncodeBytes (utf8Encode (blobCanonical cs)) from rfl]
    simp only [zlib_round_trip_bytes, utf8Decode_encode (blobCanonical cs)
      (blobCanonical_valid cs hval), parse_str_to_git_object_parts_string, hsplit0, hsplit32,
      hparse, hfromparts]

/-- C7 witness: the two-byte ASCII payload `hi` stores and retrieves
successfully. -/
theorem blob_utf8_round_trip_witness :
    git_hash_object_core (strCodes "hi") =
      some (compute_sha1_hash (blobCanonical (strCodes "hi")),
        zlib_compression (blobCanonical (strCodes "hi"))) ∧
    git_cat_file_core (zlib_compression (blobCanonical (strCodes "hi"))) =
      some (strCodes "hi") :=
  blob_utf8_round_trip (strCodes "hi") (strCodes "hi") (by decide) (by decide)


/-- C9: the object-store write never overwrites: an existing file at the
computed path makes `write_bytes_to_file` (exclusive `File::create_new`)
fail, and repeating a store of the same payload yields the same identifier
both times while leaving the filesystem — in particular the first store's
file — entirely unchanged. -/
theorem object_store_no_overwrite :
    (∀ (fs : Fs) (folder name content old : List Nat),
      fsFind fs (folder ++ [47] ++ name) = some old →
      write_bytes_to_file fs folder name content = none) ∧
    (∀ (fs : Fs) (fileBytes id1 : List Nat) (fs1 : Fs),
      git_hash_object_write fs fileBytes = some (id1, fs1) →
      git_hash_object_write fs1 fileBytes = some (id1, fs1)) := by
  constructor
  · intro fs folder name content old h
    unfold write_bytes_to_file
    rw [h]
  · intro fs fileBytes id1 fs1 h
    simp only [git_hash_object_write] at h ⊢
    cases hdec : utf8Decode fileBytes with
    | none => rw [hdec] at h; exact absurd h (by simp)
    | some content =>
      rw [hdec] at h
      simp only [as_string_blob] at h ⊢
      cases hw : write_bytes_to_file fs
          (sha1_to_file_path (compute_sha1_hash (blobCanonical content))).1
          (sha1_to_file_path (compute_sha1_hash (blobCanonical content))).2
          (zlib_compression (blobCanonical content)) with
      | some fs2 =>
        rw [hw] at h
        simp only [Option.some.injEq, Prod.mk.injEq] at h
        obtain ⟨rfl, rfl⟩ := h
        have hfs2 := write_some hw
        have hsecond : write_bytes_to_file fs2
            (sha1_to_file_path (compute_sha1_hash (blobCanonical content))).1
            (sha1_to_file_path (compute_sha1_hash (blobCanonical content))).2
            (zlib_compression (blobCanonical content)) = none := by
          unfold write_bytes_to_file
          rw [hfs2, fsFind_head]
        rw [hsecond]
      | none =>
        rw [hw] at h
        simp only [Option.some.injEq, Prod.mk.injEq] at h
        obtain ⟨rfl, rfl⟩ := h
        rw [hw]

/-- C9 witness: a write to an occupied path fails, and repeating the demo
store returns the same identifier and leaves the filesystem unchanged. -/
theorem object_store_no_overwrite_witness :
    write_bytes_to_file [(strCodes "f" ++ [47] ++ strCodes "n", [1])]
      (strCodes "f") (strCodes "n") [2] = none ∧
    git_hash_object_write demoFs (strCodes "hi") = some (demoId, demoFs) :=
  ⟨object_store_no_overwrite.1 _ _ _ _ [1] (by decide),
   object_store_no_overwrite.2 [] (strCodes "hi") demoId demoFs (by decide)⟩

/-- C10: the tree-entry parser builds the name by turning each byte between
the first space and the terminating NUL individually into the character with
that byte's value — the parsed name's code points are exactly the stored
name bytes — and the parsed name's UTF-8 re-encoding equals the stored bytes
iff every byte is ASCII, so a name stored as multi-byte UTF-8 comes back as
a different string whose characters are the individual bytes. -/
theorem tree_name_byte_chars (n h : List Nat) (hn : ∀ b ∈ n, b ≠ 0) :
    parse_tree_entry_bytes (strCodes "100644 " ++ n ++ [0] ++ h) =
      .ok (100644, n, bytes_slice_to_hex h) ∧
    (utf8Encode n = n ↔ ∀ b ∈ n, b < 128) := by
  refine ⟨?_, utf8Encode_fixed_iff n⟩
  have hshape : strCodes "100644 " ++ n ++ [0] ++ h =
      strCodes "100644" ++ (32 :: (n ++ 0 :: h)) := by
    show (strCodes "100644" ++ [32]) ++ n ++ [0] ++ h = _
    simp [List.append_assoc]
  have hscan1 : scanUntil 32 (strCodes "100644 " ++ n ++ [0] ++ h) =
      some (strCodes "100644", n ++ 0 :: h) := by
    rw [hshape]
    exact scanUntil_append 32 _ _ (by decide)
  have hscan2 : scanUntil 0 (n ++ 0 :: h) = some (n, h) :=
    scanUntil_append 0 n h (fun hm => hn 0 hm rfl)
  simp only [parse_tree_entry_bytes, hscan1, hscan2,
    show parseUsize (strCodes "100644") = some 100644 from by decide]

/-- C10 witness: the two-byte UTF-8 name `é` (bytes 195, 169) parses to the
two-character name with those code points, which is not UTF-8-fixed. -/
theorem tree_name_byte_chars_witness :
    parse_tree_entry_bytes (strCodes "100644 " ++ [195, 169] ++ [0] ++ List.replicate 20 1) =
      .ok (100644, [195, 169], bytes_slice_to_hex (List.replicate 20 1)) ∧
    (utf8Encode [195, 169] = [195, 169] ↔ ∀ b ∈ [195, 169], b < 128) :=
  tree_name_byte_chars [195, 169] (List.replicate 20 1) (by decide)


/-- C1 counterexample: the round trip does not hold for arbitrary 20-byte
hashes — a hash containing a NUL byte (here: a single entry, mode digits
`40000`, name `a`, hash `00 01 01 ...`) makes `tree_entry_end_pos` emit a
bogus boundary past the payload end and the slicing panics instead of
returning the one entry. -/
theorem tree_parse_nul_hash_cex :
    parse_str_tree_entry_vec nulHashPayload = .panic ∧
    parse_str_tree_entry_vec nulHashPayload ≠
      .ok [⟨.Directory, strCodes "a", bytes_slice_to_hex (0 :: List.replicate 19 1)⟩] := by
  refine ⟨by decide, by decide⟩

/-- C1 (amended): for every directory-listing payload built by concatenating
entries of the form mode digits, space, name bytes, NUL, 20 raw hash bytes,
parsing succeeds and returns exactly the entries in order — each mode the
variant of its numeric code, each name reproduced, each child identifier the
40-character lowercase-hex rendering of the 20 hash bytes — provided no name
byte and no hash byte is NUL (the scan treats every NUL as an entry
terminator, so NUL-containing hashes break it; see the counterexample). -/
theorem tree_parse_round_trip (es : List EntrySpec) (h : ∀ e ∈ es, entryWF e) :
    parse_str_tree_entry_vec (encodeTreeEntries es) =
      .ok (es.map fun e => ⟨e.mode, e.name, bytes_slice_to_hex e.hash⟩) ∧
    ∀ e ∈ es, (bytes_slice_to_hex e.hash).length = 40 ∧
      ∀ c ∈ bytes_slice_to_hex e.hash, (48 ≤ c ∧ c ≤ 57) ∨ (97 ≤ c ∧ c ≤ 102) := by
  constructor
  · unfold parse_str_tree_entry_vec extract_from_vec_at encodeTreeEntries
    rw [tree_entry_end_pos_eq]
    rw [zp_join (es.map encodeTreeEntry) ?_]
    · rw [show (0 : Nat) = (0 : Nat) from rfl]
      rw [extractFromAux_spec (es.map encodeTreeEntry) (es.map encodeTreeEntry).flatten 0
        (by simp) (by simp)]
      exact treeEntries_map es h
    · intro b hb
      obtain ⟨e, he, rfl⟩ := List.mem_map.mp hb
      exact zp_encodeTreeEntry e (h e he)
  · intro e he
    have hwf := h e he
    refine ⟨?_, bytes_slice_to_hex_chars e.hash (fun b hb => (hwf.2.2 b hb).2)⟩
    rw [bytes_slice_to_hex_length, hwf.2.1]

/-- C1 witness: the two-entry demonstration payload (a directory `src` and a
regular file `a b` whose name contains a space after the first one) parses
back to its two entries with 40-hex-char identifiers. -/
theorem tree_parse_round_trip_witness :
    parse_str_tree_entry_vec (encodeTreeEntries demoEntries) =
      .ok (demoEntries.map fun e => ⟨e.mode, e.name, bytes_slice_to_hex e.hash⟩) ∧
    ∀ e ∈ demoEntries, (bytes_slice_to_hex e.hash).length = 40 ∧
      ∀ c ∈ bytes_slice_to_hex e.hash, (48 ≤ c ∧ c ≤ 57) ∨ (97 ≤ c ∧ c ≤ 102) :=
  tree_parse_round_trip demoEntries (by decide)

end GitSpec
